import Mathlib

/-!
Verification of the celerix-store engine against its natural-language
specification.

The definitions below shallowly embed the Rust sources:

- the in-memory engine `src/engine/memstore.rs` (get, set, delete,
  get_global, move_key over the nested Persona -> App -> Key maps);
- the vault wrappers `src/engine/vault.rs` (hex framing, key-length
  checks, nonce handling around AES-256-GCM);
- the persistence layer `src/engine/persistence.rs` (save_persona write
  then rename sequence, load_all directory scan);
- the remote client retry loop `src/sdk/client.rs` (send_and_receive).

The std HashMap is embedded as an association list: a concrete,
deterministic iteration order standing for the map iteration order that
a fixed HashMap instance exhibits. serde_json::Value is opaque to the
engine beyond identity, so it is embedded as a small value type with
decidable equality.
-/

namespace Celerix

/-- Embedding of serde_json::Value. The engine treats values opaquely
(identity and cloning only), so a representative value type with
decidable equality is enough. -/
inductive JsonVal where
  | null : JsonVal
  | jbool : Bool → JsonVal
  | jnum : Int → JsonVal
  | jstr : String → JsonVal
  deriving DecidableEq, Repr

/-- Embedding of the crate error enum (src/lib.rs). PersonaNotFound,
AppNotFound and KeyNotFound are the not-found kinds the spec calls
ScopeNotFound, NamespaceNotFound and KeyNotFound. -/
inductive Error where
  | personaNotFound : Error
  | appNotFound : Error
  | keyNotFound : Error
  | internal : String → Error
  deriving DecidableEq, Repr

/-- Association list standing for std HashMap: unique string keys,
deterministic iteration order. -/
abbrev AList (α : Type) := List (String × α)

/-- HashMap::get — first entry with the key. -/
def aget {α : Type} : AList α → String → Option α
  | [], _ => none
  | (k₁, v₁) :: t, k => if k₁ = k then some v₁ else aget t k

/-- HashMap::insert — replace the entry in place, or append a fresh one. -/
def aset {α : Type} : AList α → String → α → AList α
  | [], k, v => [(k, v)]
  | (k₁, v₁) :: t, k, v => if k₁ = k then (k, v) :: t else (k₁, v₁) :: aset t k v

/-- HashMap::remove — drop every entry with the key (a well-formed map
has at most one). -/
def adel {α : Type} : AList α → String → AList α
  | [], _ => []
  | (k₁, v₁) :: t, k => if k₁ = k then adel t k else (k₁, v₁) :: adel t k

/-- Key -> Value map of one app. -/
abbrev AppData := AList JsonVal

/-- App -> Key -> Value map of one persona. -/
abbrev PersonaData := AList AppData

/-- The whole hierarchy guarded by the engine lock
(type StoreData in src/engine/memstore.rs). -/
abbrev StoreData := AList PersonaData

/-- MemStore::get (src/engine/memstore.rs lines 56-65): the three lookups
chained with ok_or, checked persona first, then app, then key. -/
def MemStore.get (d : StoreData) (personaId appId key : String) :
    Except Error JsonVal :=
  match aget d personaId with
  | none => Except.error Error.personaNotFound
  | some pd =>
    match aget pd appId with
    | none => Except.error Error.appNotFound
    | some ad =>
      match aget ad key with
      | none => Except.error Error.keyNotFound
      | some v => Except.ok v

/-- The map update MemStore::set performs (entry().or_default() twice,
then insert). -/
def setData (d : StoreData) (personaId appId key : String) (v : JsonVal) :
    StoreData :=
  let pd := (aget d personaId).getD []
  let ad := (aget pd appId).getD []
  aset d personaId (aset pd appId (aset ad key v))

/-- MemStore::set (lines 70-79): updates the map and returns Ok(()).
The fire-and-forget persistence call never affects the result. -/
def MemStore.set (d : StoreData) (personaId appId key : String) (v : JsonVal) :
    Except Error StoreData :=
  Except.ok (setData d personaId appId key v)

/-- The map update MemStore::delete performs: remove the key when the
persona and app maps exist, otherwise leave everything untouched. -/
def deleteData (d : StoreData) (personaId appId key : String) : StoreData :=
  match aget d personaId with
  | none => d
  | some pd =>
    match aget pd appId with
    | none => d
    | some ad => aset d personaId (aset pd appId (adel ad key))

/-- MemStore::delete (lines 81-92): always returns Ok(()). -/
def MemStore.delete (d : StoreData) (personaId appId key : String) :
    Except Error StoreData :=
  Except.ok (deleteData d personaId appId key)

/-- MemStore::get_global (lines 135-145): scan the personas in iteration
order, return the first hit, KeyNotFound when none. -/
def MemStore.getGlobal (d : StoreData) (appId key : String) :
    Except Error (JsonVal × String) :=
  match d with
  | [] => Except.error Error.keyNotFound
  | (personaId, pd) :: t =>
    match aget pd appId with
    | some ad =>
      match aget ad key with
      | some v => Except.ok (v, personaId)
      | none => MemStore.getGlobal t appId key
    | none => MemStore.getGlobal t appId key

/-- MemStore::move_key (lines 150-162): remove the value from the source
side (failing with the lookup chain of a read, leaving the map as it
was), then self.set it at the destination. The pair returns the Result
together with the hierarchy after the call. -/
def MemStore.moveKey (d : StoreData) (srcPersona dstPersona appId key : String) :
    Except Error Unit × StoreData :=
  match aget d srcPersona with
  | none => (Except.error Error.personaNotFound, d)
  | some pd =>
    match aget pd appId with
    | none => (Except.error Error.appNotFound, d)
    | some ad =>
      match aget ad key with
      | none => (Except.error Error.keyNotFound, d)
      | some v =>
        let d₁ := aset d srcPersona (aset pd appId (adel ad key))
        (Except.ok (), setData d₁ dstPersona appId key v)

/-- Whether a persona holds the key inside the given app — the condition
get_global tests for one persona. -/
def personaHasKey (pd : PersonaData) (appId key : String) : Bool :=
  match aget pd appId with
  | none => false
  | some ad => (aget ad key).isSome

/-- The value a persona holds at (appId, key), when any. -/
def valueIn (pd : PersonaData) (appId key : String) : Option JsonVal :=
  (aget pd appId).bind fun ad => aget ad key

/-- Concrete one-key store used by the C2 counterexample and witness. -/
def cexStore : StoreData := [("p1", [("app1", [("k1", JsonVal.jstr "v1")])])]

/-! ## Vault (src/engine/vault.rs)

Bytes are embedded as Nat below 256. The hex framing, the 32-byte key
checks, the 12-byte nonce layout and the error messages are taken from
the source; the AES-256-GCM core itself lives in the external aes_gcm
crate, so it is embedded as an ideal authenticated cipher. -/

/-- Lowercase hex digit of a value below 16 (the hex crate encodes
lowercase). -/
def hexDigitChar (n : Nat) : Char :=
  if n < 10 then Char.ofNat (48 + n) else Char.ofNat (87 + n)

/-- hex::encode of one byte: high nibble then low nibble. -/
def hexEncodeByte (b : Nat) : List Char :=
  [hexDigitChar (b / 16), hexDigitChar (b % 16)]

/-- hex::encode of a byte string. -/
def hexEncode (bs : List Nat) : List Char :=
  (bs.map hexEncodeByte).flatten

/-- Value of one hex digit, either case (the hex crate decodes both). -/
def hexDigitVal (c : Char) : Option Nat :=
  if 48 ≤ c.toNat ∧ c.toNat ≤ 57 then some (c.toNat - 48)
  else if 97 ≤ c.toNat ∧ c.toNat ≤ 102 then some (c.toNat - 87)
  else if 65 ≤ c.toNat ∧ c.toNat ≤ 70 then some (c.toNat - 55)
  else none

/-- hex::decode — fails on odd length or a non-hex character. -/
def hexDecode : List Char → Option (List Nat)
  | [] => some []
  | [_] => none
  | c₁ :: c₂ :: t =>
    match hexDigitVal c₁, hexDigitVal c₂, hexDecode t with
    | some hi, some lo, some rest => some ((hi * 16 + lo) :: rest)
    | _, _, _ => none

/-- Modelled from the spec: the AES-256-GCM cipher core is code of the
external aes_gcm crate, absent from this repository, so it is embedded
as an ideal authenticated cipher — the ciphertext carries the plaintext
together with a tag that only the sealing key authenticates. This is
exactly the behaviour the spec relies on: opening under the sealing key
recovers the plaintext, opening under any other key is one
indistinguishable failure. -/
def aeadEncrypt (key nonce pt : List Nat) : List Nat := pt ++ key

/-- Modelled from the spec: ideal authenticated decryption — check the
tag against the key, recover the plaintext on a match, reject
otherwise. -/
def aeadDecrypt (key nonce ct : List Nat) : Option (List Nat) :=
  if 32 ≤ ct.length ∧ ct.drop (ct.length - 32) = key then
    some (ct.take (ct.length - 32))
  else none

/-- vault::encrypt (src/engine/vault.rs lines 10-21): reject a key that
is not exactly 32 bytes, then hex-encode nonce ++ ciphertext. The
plaintext stands for the UTF-8 bytes of the input string and the random
12-byte nonce OsRng draws is passed explicitly. -/
def encrypt (plaintext key nonce : List Nat) : Except Error (List Char) :=
  if key.length ≠ 32 then Except.error (Error.internal "Key must be 32 bytes")
  else Except.ok (hexEncode (nonce ++ aeadEncrypt key nonce plaintext))

/-- vault::decrypt (src/engine/vault.rs lines 27-42): key length check,
hex decode, minimum length check, split the 12-byte nonce off, then
authenticated decryption with a single failure message. -/
def decrypt (cipherHex : List Char) (key : List Nat) : Except Error (List Nat) :=
  if key.length ≠ 32 then Except.error (Error.internal "Key must be 32 bytes")
  else
    match hexDecode cipherHex with
    | none => Except.error (Error.internal "hex decode failed")
    | some combined =>
      if combined.length < 12 then
        Except.error (Error.internal "Ciphertext too short")
      else
        match aeadDecrypt key (combined.take 12) (combined.drop 12) with
        | none =>
          Except.error
            (Error.internal "decryption failed (wrong key or tampered data)")
        | some pt => Except.ok pt

/-- Concrete plaintext for the C6 witness. -/
def pW : List Nat := [104, 105]

/-- Concrete 32-byte key for the C6 witness. -/
def keyW : List Nat := List.replicate 32 7

/-- A second, different 32-byte key for the C6 witness. -/
def keyW₂ : List Nat := List.replicate 32 9

/-- Concrete 12-byte nonce for the C6 witness. -/
def nonceW : List Nat := List.replicate 12 1

/-! ## Persistence (src/engine/persistence.rs)

The data directory is embedded as the list of entries fs::read_dir
yields, in iteration order. For load_all an entry carries the results
of the file_stem().to_str() and extension().to_str() conversions of its
path — none standing for a path component that does not decode to
UTF-8 — together with what reading and JSON-parsing the file yields;
for save_persona the file system is a map from path to content and the
operations the function issues are made explicit. -/

/-- What reading then parsing one directory entry yields: the read
fails, the bytes do not parse into the Namespace -> Key -> Value shape,
or they parse to a persona map. -/
inductive FileContent where
  | unreadable : FileContent
  | malformed : FileContent
  | parsed : PersonaData → FileContent
  deriving DecidableEq

/-- One fs::read_dir entry: file_stem().to_str() of its path (none for
a stem that is not UTF-8), extension().to_str() likewise, and what
reading the file yields. -/
structure DirEntry where
  stem : Option String
  ext : Option String
  content : FileContent
  deriving DecidableEq

/-- True for a .json entry that reads and parses — the entries load_all
keeps. -/
def isParsedJson (e : DirEntry) : Bool :=
  decide (e.ext = some "json") &&
    (match e.content with
     | FileContent.parsed _ => true
     | _ => false)

/-- The stems of the kept entries, in directory order. -/
def parsedStems (entries : List DirEntry) : List (Option String) :=
  (entries.filter isParsedJson).map DirEntry.stem

/-- Persistence::load_all (src/engine/persistence.rs lines 50-88): walk
the directory entries, keep only .json files. For a kept file the
persona id is file_stem().to_str() with ok_or plus the ? operator — a
stem that does not decode to UTF-8 aborts the whole load with
Internal("Invalid filename") (lines 62-65). After that, an entry whose
read fails or whose content does not parse is skipped (the source logs
a warning); a parsed entry is inserted into the accumulator (all_data)
under its stem. -/
def loadAllFrom : StoreData → List DirEntry → Except Error StoreData
  | acc, [] => Except.ok acc
  | acc, e :: t =>
    if e.ext = some "json" then
      match e.stem with
      | none => Except.error (Error.internal "Invalid filename")
      | some st =>
        match e.content with
        | FileContent.unreadable => loadAllFrom acc t
        | FileContent.malformed => loadAllFrom acc t
        | FileContent.parsed d => loadAllFrom (aset acc st d) t
    else loadAllFrom acc t

/-- load_all from the empty accumulator. -/
def loadAll (entries : List DirEntry) : Except Error StoreData :=
  loadAllFrom [] entries

/-- A file-system operation save_persona issues. -/
inductive FsOp where
  | write : String → List Nat → FsOp
  | rename : String → String → FsOp
  deriving DecidableEq

/-- The canonical per-scope path, data_dir.join of the persona id plus
.json. -/
def canonicalPath (dir personaId : String) : String :=
  dir ++ "/" ++ personaId ++ ".json"

/-- The staging path: with_extension of json.tmp turns
<stem>.json into <stem>.json.tmp, the canonical path plus .tmp. -/
def tempPath (dir personaId : String) : String :=
  canonicalPath dir personaId ++ ".tmp"

/-- Persistence::save_persona (lines 34-44): write the serialized bytes
to the staging path, then rename the staging path onto the canonical
path — exactly these two operations, in this order. -/
def savePersonaOps (dir personaId : String) (bytes : List Nat) : List FsOp :=
  [FsOp.write (tempPath dir personaId) bytes,
   FsOp.rename (tempPath dir personaId) (canonicalPath dir personaId)]

/-- File-system state: the content visible at each path. -/
abbrev FsState := String → Option (List Nat)

/-- Effect of one operation on the file system. -/
def applyOp (s : FsState) : FsOp → FsState
  | FsOp.write p c => fun q => if q = p then some c else s q
  | FsOp.rename src dst =>
    fun q => if q = dst then s src else if q = src then none else s q

/-- Run a sequence of operations left to right. -/
def runOps (s : FsState) (ops : List FsOp) : FsState := ops.foldl applyOp s

/-- Concrete directory listing for the C8 witness: one good scope file,
one malformed, one unreadable, one non-json entry. -/
def dirW : List DirEntry :=
  [⟨some "p1", some "json",
    FileContent.parsed [("app1", [("k1", JsonVal.jstr "v1")])]⟩,
   ⟨some "bad", some "json", FileContent.malformed⟩,
   ⟨some "p2", some "json", FileContent.unreadable⟩,
   ⟨some "notes", some "txt", FileContent.parsed []⟩]

/-- Directory listing for the C8 counterexample: a valid scope file
next to a .json entry whose file stem does not decode to UTF-8 (on
Linux e.g. the file name bytes FF 2E 6A 73 6F 6E — its extension is
still the UTF-8 string json, its stem is not). -/
def dirBad : List DirEntry :=
  [⟨some "p1", some "json",
    FileContent.parsed [("app1", [("k1", JsonVal.jstr "v1")])]⟩,
   ⟨none, some "json", FileContent.parsed []⟩]

/-! ## Remote client (src/sdk/client.rs)

A response line is embedded as a list of characters (the router's
responses are ASCII, where byte and character indices agree). The
network is embedded as an oracle giving, for each iteration i of the
retry loop, whether a connect attempt would succeed and what the
write/read against the live connection yields. The backoff sleeps only
affect timing and are dropped. -/

/-- What one loop iteration observes on the wire once a connection is
live: the write fails, the read returns Ok(0) (peer closed), the read
errors, or a full response line arrives. -/
inductive IOOutcome where
  | writeFail : IOOutcome
  | readClosed : IOOutcome
  | readErr : IOOutcome
  | response : List Char → IOOutcome

/-- Outcome of Client::send_and_receive: Ok with the trimmed line, the
Err(Error::Internal ...) paths, the surfaced connect error, or the
panic the out-of-bounds slice raises. -/
inductive ClientResult where
  | ok : List Char → ClientResult
  | errInternal : List Char → ClientResult
  | errConnect : ClientResult
  | panicked : ClientResult
  deriving DecidableEq, Repr

/-- Whitespace for str::trim (the whitespace the protocol produces). -/
def isWsChar (c : Char) : Bool :=
  c = ' ' || c = '\n' || c = '\t' || c = '\r'

/-- str::trim — strip whitespace from both ends. -/
def trimChars (l : List Char) : List Char :=
  ((l.dropWhile isWsChar).reverse.dropWhile isWsChar).reverse

/-- str::starts_with of the literal ERR. -/
def startsWithERR : List Char → Bool
  | 'E' :: 'R' :: 'R' :: _ => true
  | _ => false

/-- The response handling of send_and_receive (src/sdk/client.rs lines
59-65): trim, test starts_with ERR, slice the line at byte 4 for the
reason. Rust slicing panics when the trimmed line is shorter than four
bytes, which the model makes an explicit outcome. -/
def handleLine (line : List Char) : ClientResult :=
  if startsWithERR (trimChars line) then
    if (trimChars line).length < 4 then ClientResult.panicked
    else ClientResult.errInternal ((trimChars line).drop 4)
  else ClientResult.ok (trimChars line)

/-- The message of the post-loop terminal error. -/
def failMsg : List Char := "failed after 3 attempts".toList

/-- The for i in 0..3 body of send_and_receive (lines 35-71): with no
live connection, a failed connect is retried unless i == 2, where the
connect error surfaces; a write failure, closed read or read error
drops the connection and retries; a response line ends the loop. The
result is paired with the number of iterations consumed. -/
def sendAttempts (oracle : Nat → Bool × IOOutcome) :
    Nat → Nat → Bool → ClientResult × Nat
  | 0, i, _ => (ClientResult.errInternal failMsg, i)
  | fuel + 1, i, conn =>
    if conn = false ∧ (oracle i).1 = false then
      (if i = 2 then (ClientResult.errConnect, i + 1)
       else sendAttempts oracle fuel (i + 1) false)
    else
      match (oracle i).2 with
      | IOOutcome.writeFail => sendAttempts oracle fuel (i + 1) false
      | IOOutcome.readClosed => sendAttempts oracle fuel (i + 1) false
      | IOOutcome.readErr => sendAttempts oracle fuel (i + 1) false
      | IOOutcome.response line => (handleLine line, i + 1)

/-- Client::send_and_receive: run the loop from iteration 0, with conn
telling whether a connection is already live. -/
def sendAndReceive (oracle : Nat → Bool × IOOutcome) (conn : Bool) :
    ClientResult × Nat :=
  sendAttempts oracle 3 0 conn

/-! ## Association list lemmas -/

theorem aget_aset_self {α : Type} (l : AList α) (k : String) (v : α) :
    aget (aset l k v) k = some v := by
  induction l with
  | nil => simp [aget, aset]
  | cons h t ih =>
    obtain ⟨k₁, v₁⟩ := h
    by_cases hk : k₁ = k
    · simp [aset, hk, aget]
    · simp [aset, hk, aget, ih]

theorem aget_aset_ne {α : Type} (l : AList α) (k k' : String) (v : α)
    (hne : k' ≠ k) : aget (aset l k v) k' = aget l k' := by
  induction l with
  | nil => simp [aget, aset, Ne.symm hne]
  | cons h t ih =>
    obtain ⟨k₁, v₁⟩ := h
    by_cases hk : k₁ = k
    · subst hk
      simp [aset, aget, Ne.symm hne]
    · by_cases hk' : k₁ = k'
      · simp [aset, hk, aget, hk', hne]
      · simp [aset, hk, aget, hk', ih]

theorem aset_aset_self {α : Type} (l : AList α) (k : String) (v w : α) :
    aset (aset l k v) k w = aset l k w := by
  induction l with
  | nil => simp [aset]
  | cons h t ih =>
    obtain ⟨k₁, v₁⟩ := h
    by_cases hk : k₁ = k
    · simp [aset, hk]
    · simp [aset, hk, ih]

theorem aget_adel_self {α : Type} (l : AList α) (k : String) :
    aget (adel l k) k = none := by
  induction l with
  | nil => simp [adel, aget]
  | cons h t ih =>
    obtain ⟨k₁, v₁⟩ := h
    by_cases hk : k₁ = k
    · simp [adel, hk, ih]
    · simp [adel, hk, aget, ih]

theorem adel_adel {α : Type} (l : AList α) (k : String) :
    adel (adel l k) k = adel l k := by
  induction l with
  | nil => simp [adel]
  | cons h t ih =>
    obtain ⟨k₁, v₁⟩ := h
    by_cases hk : k₁ = k
    · simp [adel, hk, ih]
    · simp [adel, hk, ih]

theorem adel_of_aget_none {α : Type} (l : AList α) (k : String)
    (h : aget l k = none) : adel l k = l := by
  induction l with
  | nil => simp [adel]
  | cons hd t ih =>
    obtain ⟨k₁, v₁⟩ := hd
    by_cases hk : k₁ = k
    · simp [aget, hk] at h
    · simp [aget, hk] at h
      simp [adel, hk, ih h]

theorem aset_of_aget_some {α : Type} (l : AList α) (k : String) (v : α)
    (h : aget l k = some v) : aset l k v = l := by
  induction l with
  | nil => simp [aget] at h
  | cons hd t ih =>
    obtain ⟨k₁, v₁⟩ := hd
    by_cases hk : k₁ = k
    · simp [aget, hk] at h
      simp [aset, hk, h]
    · simp [aget, hk] at h
      simp [aset, hk, ih h]

theorem MemStore.get_setData (d : StoreData) (p a k : String) (v : JsonVal) :
    MemStore.get (setData d p a k v) p a k = Except.ok v := by
  unfold MemStore.get setData
  simp [aget_aset_self]

theorem MemStore.get_setData_ne (d : StoreData) (p dst a k a' k' : String)
    (v : JsonVal) (hne : p ≠ dst) :
    MemStore.get (setData d dst a' k' v) p a k = MemStore.get d p a k := by
  simp only [MemStore.get, setData]
  rw [aget_aset_ne d dst p _ hne]

/-! ## Claim theorems -/

/-- C1: for every store state and (scope, namespace, key, value), set
succeeds with Ok — creating missing persona/app containers on the way —
and an immediately following get of the same coordinates returns exactly
the written value. -/
theorem set_get_roundtrip (d : StoreData) (p a k : String) (v : JsonVal) :
    MemStore.set d p a k v = Except.ok (setData d p a k v) ∧
    MemStore.get (setData d p a k v) p a k = Except.ok v :=
  ⟨rfl, MemStore.get_setData d p a k v⟩

/-- C4: delete is total and idempotent: it returns Ok on every input,
deleting a key that a read would not find leaves the hierarchy exactly
as it was, and deleting twice is deleting once. -/
theorem delete_total_idempotent (d : StoreData) (p a k : String) :
    MemStore.delete d p a k = Except.ok (deleteData d p a k) ∧
    ((∀ v, MemStore.get d p a k ≠ Except.ok v) → deleteData d p a k = d) ∧
    deleteData (deleteData d p a k) p a k = deleteData d p a k := by
  refine ⟨rfl, ?_, ?_⟩
  · intro habs
    cases hp : aget d p with
    | none => simp [deleteData, hp]
    | some pd =>
      cases ha : aget pd a with
      | none => simp [deleteData, hp, ha]
      | some ad =>
        cases hk : aget ad k with
        | none =>
          simp only [deleteData, hp, ha]
          rw [adel_of_aget_none ad k hk, aset_of_aget_some pd a ad ha,
            aset_of_aget_some d p pd hp]
        | some v =>
          exact absurd (by simp [MemStore.get, hp, ha, hk]) (habs v)
  · cases hp : aget d p with
    | none => simp [deleteData, hp]
    | some pd =>
      cases ha : aget pd a with
      | none => simp [deleteData, hp, ha]
      | some ad =>
        have h₁ : deleteData d p a k = aset d p (aset pd a (adel ad k)) := by
          simp [deleteData, hp, ha]
        rw [h₁]
        simp [deleteData, aget_aset_self, adel_adel, aset_aset_self]

/-- C5: the lookup errors of get are checked persona (scope) first, then
app (namespace), then key: each error kind appears exactly when its level
is the outermost missing one. -/
theorem get_error_order (d : StoreData) (p a k : String) :
    (MemStore.get d p a k = Except.error Error.personaNotFound ↔
      aget d p = none) ∧
    (MemStore.get d p a k = Except.error Error.appNotFound ↔
      ∃ pd, aget d p = some pd ∧ aget pd a = none) ∧
    (MemStore.get d p a k = Except.error Error.keyNotFound ↔
      ∃ pd ad, aget d p = some pd ∧ aget pd a = some ad ∧ aget ad k = none) ∧
    (∀ v, MemStore.get d p a k = Except.ok v ↔
      ∃ pd ad, aget d p = some pd ∧ aget pd a = some ad ∧ aget ad k = some v) := by
  cases hp : aget d p with
  | none => simp [MemStore.get, hp]
  | some pd =>
    cases ha : aget pd a with
    | none => simp [MemStore.get, hp, ha]
    | some ad =>
      cases hk : aget ad k with
      | none => simp [MemStore.get, hp, ha, hk]
      | some v => simp [MemStore.get, hp, ha, hk]

/-- C4 (witness): totality and idempotence applied at a concrete store:
deleting an absent key leaves the store untouched and a double delete
equals a single one. -/
theorem delete_total_idempotent_witness :
    deleteData cexStore "p1" "app1" "missing" = cexStore ∧
    deleteData (deleteData cexStore "p1" "app1" "k1") "p1" "app1" "k1"
      = deleteData cexStore "p1" "app1" "k1" := by
  have h := delete_total_idempotent cexStore "p1" "app1" "missing"
  have h₂ := delete_total_idempotent cexStore "p1" "app1" "k1"
  refine ⟨h.2.1 ?_, h₂.2.2⟩
  intro v hv
  have hbad : (Except.error Error.keyNotFound : Except Error JsonVal)
      = Except.ok v := hv
  exact Except.noConfusion hbad

/-- C2 (counterexample): with source scope equal to destination scope, a
successful move_key leaves the key readable at the old coordinates (the
value is removed and then re-inserted at the same place), so the claim
as stated — old coordinates read KeyNotFound after every successful
move — fails on the self-move instance. -/
theorem move_key_self_counterexample :
    MemStore.get cexStore "p1" "app1" "k1" = Except.ok (JsonVal.jstr "v1") ∧
    (MemStore.moveKey cexStore "p1" "p1" "app1" "k1").1 = Except.ok () ∧
    MemStore.get (MemStore.moveKey cexStore "p1" "p1" "app1" "k1").2
      "p1" "app1" "k1" = Except.ok (JsonVal.jstr "v1") ∧
    MemStore.get (MemStore.moveKey cexStore "p1" "p1" "app1" "k1").2
      "p1" "app1" "k1" ≠ Except.error Error.keyNotFound := by
  refine ⟨rfl, rfl, rfl, fun h => ?_⟩
  have h₂ : Except.ok (JsonVal.jstr "v1") =
      (Except.error Error.keyNotFound : Except Error JsonVal) := h
  exact Except.noConfusion h₂

/-- C2 (amended): when the source and destination scopes differ, a
successful move_key makes the old coordinates read KeyNotFound and the
new coordinates read the moved value; when the source side is absent,
move_key fails with exactly the error get would report and leaves the
hierarchy unchanged. -/
theorem move_key_spec (d : StoreData) (src dst a k : String) :
    (∀ v, src ≠ dst → MemStore.get d src a k = Except.ok v →
      (MemStore.moveKey d src dst a k).1 = Except.ok () ∧
      MemStore.get (MemStore.moveKey d src dst a k).2 src a k
        = Except.error Error.keyNotFound ∧
      MemStore.get (MemStore.moveKey d src dst a k).2 dst a k
        = Except.ok v) ∧
    (∀ e, MemStore.get d src a k = Except.error e →
      (MemStore.moveKey d src dst a k).1 = Except.error e ∧
      (MemStore.moveKey d src dst a k).2 = d) := by
  constructor
  · intro v hne hget
    cases hp : aget d src with
    | none => simp [MemStore.get, hp] at hget
    | some pd =>
      cases ha : aget pd a with
      | none => simp [MemStore.get, hp, ha] at hget
      | some ad =>
        cases hk : aget ad k with
        | none => simp [MemStore.get, hp, ha, hk] at hget
        | some v₀ =>
          have hv : v₀ = v := by simpa [MemStore.get, hp, ha, hk] using hget
          subst hv
          have hmk : MemStore.moveKey d src dst a k =
              (Except.ok (),
               setData (aset d src (aset pd a (adel ad k))) dst a k v₀) := by
            simp [MemStore.moveKey, hp, ha, hk]
          refine ⟨by rw [hmk], ?_, ?_⟩
          · rw [hmk]
            rw [MemStore.get_setData_ne _ _ _ _ _ _ _ _ hne]
            simp [MemStore.get, aget_aset_self, aget_adel_self]
          · rw [hmk]
            exact MemStore.get_setData _ _ _ _ _
  · intro e hget
    cases hp : aget d src with
    | none =>
      have he : Error.personaNotFound = e := by
        simpa [MemStore.get, hp] using hget
      subst he
      simp [MemStore.moveKey, hp]
    | some pd =>
      cases ha : aget pd a with
      | none =>
        have he : Error.appNotFound = e := by
          simpa [MemStore.get, hp, ha] using hget
        subst he
        simp [MemStore.moveKey, hp, ha]
      | some ad =>
        cases hk : aget ad k with
        | none =>
          have he : Error.keyNotFound = e := by
            simpa [MemStore.get, hp, ha, hk] using hget
          subst he
          simp [MemStore.moveKey, hp, ha, hk]
        | some v₀ =>
          simp [MemStore.get, hp, ha, hk] at hget

/-- C2 (witness): the amended theorem applied at a concrete store — a
move from p1 to p2, and a failing move out of an empty store. -/
theorem move_key_spec_witness :
    ((MemStore.moveKey cexStore "p1" "p2" "app1" "k1").1 = Except.ok () ∧
     MemStore.get (MemStore.moveKey cexStore "p1" "p2" "app1" "k1").2
       "p1" "app1" "k1" = Except.error Error.keyNotFound ∧
     MemStore.get (MemStore.moveKey cexStore "p1" "p2" "app1" "k1").2
       "p2" "app1" "k1" = Except.ok (JsonVal.jstr "v1")) ∧
    ((MemStore.moveKey [] "p1" "p2" "app1" "k1").1
       = Except.error Error.personaNotFound ∧
     (MemStore.moveKey [] "p1" "p2" "app1" "k1").2 = []) :=
  ⟨(move_key_spec cexStore "p1" "p2" "app1" "k1").1 (JsonVal.jstr "v1")
      (by decide) rfl,
   (move_key_spec [] "p1" "p2" "app1" "k1").2 Error.personaNotFound rfl⟩

/-- C3: get_global is a deterministic function of the store state, it
returns the first persona in iteration order whose copy of the namespace
holds the key (List.find? over the persona list) together with that
value, and it returns KeyNotFound exactly when no persona holds the key
in that namespace. -/
theorem get_global_first_match (d : StoreData) (a k : String) :
    (∀ r₁ r₂ : Except Error (JsonVal × String),
      MemStore.getGlobal d a k = r₁ → MemStore.getGlobal d a k = r₂ →
        r₁ = r₂) ∧
    (MemStore.getGlobal d a k = Except.error Error.keyNotFound ↔
      ∀ pr ∈ d, personaHasKey pr.2 a k = false) ∧
    (∀ v p, MemStore.getGlobal d a k = Except.ok (v, p) ↔
      ∃ pd, List.find? (fun pr => personaHasKey pr.2 a k) d = some (p, pd) ∧
        valueIn pd a k = some v) := by
  refine ⟨fun r₁ r₂ h₁ h₂ => h₁.symm.trans h₂, ?_⟩
  induction d with
  | nil => simp [MemStore.getGlobal]
  | cons hd t ih =>
    obtain ⟨q, qd⟩ := hd
    obtain ⟨ih₁, ih₂⟩ := ih
    by_cases hpk : personaHasKey qd a k = true
    · have hval : ∃ ad v₀, aget qd a = some ad ∧ aget ad k = some v₀ := by
        cases hq : aget qd a with
        | none => simp [personaHasKey, hq] at hpk
        | some ad =>
          cases hk : aget ad k with
          | none => simp [personaHasKey, hq, hk] at hpk
          | some v₀ => exact ⟨ad, v₀, rfl, hk⟩
      obtain ⟨ad, v₀, hq, hk⟩ := hval
      have hgg : MemStore.getGlobal ((q, qd) :: t) a k = Except.ok (v₀, q) := by
        simp [MemStore.getGlobal, hq, hk]
      have hfind : List.find? (fun pr => personaHasKey pr.2 a k) ((q, qd) :: t)
          = some (q, qd) := List.find?_cons_of_pos _ hpk
      constructor
      · rw [hgg]
        constructor
        · intro h; exact absurd h (by simp)
        · intro h
          exact absurd (h (q, qd) (List.mem_cons_self _ _)) (by simp [hpk])
      · intro v p
        rw [hgg, hfind]
        constructor
        · intro h
          have h₁ : v₀ = v ∧ q = p := by simpa using h
          obtain ⟨hv, hp⟩ := h₁
          subst hv; subst hp
          exact ⟨qd, rfl, by simp [valueIn, hq, hk]⟩
        · intro h
          obtain ⟨pd, hpd, hv⟩ := h
          have h₁ : q = p ∧ qd = pd := by simpa using hpd
          obtain ⟨hp, hqd⟩ := h₁
          subst hp; subst hqd
          have : v₀ = v := by simpa [valueIn, hq, hk] using hv
          subst this
          rfl
    · have hpk' : personaHasKey qd a k = false := by
        simpa using hpk
      have hgg : MemStore.getGlobal ((q, qd) :: t) a k
          = MemStore.getGlobal t a k := by
        cases hq : aget qd a with
        | none => simp [MemStore.getGlobal, hq]
        | some ad =>
          cases hk : aget ad k with
          | none => simp [MemStore.getGlobal, hq, hk]
          | some v₀ => simp [personaHasKey, hq, hk] at hpk'
      have hfind : List.find? (fun pr => personaHasKey pr.2 a k) ((q, qd) :: t)
          = List.find? (fun pr => personaHasKey pr.2 a k) t := by
        refine List.find?_cons_of_neg _ ?_
        simp [hpk']
      constructor
      · rw [hgg, ih₁]
        constructor
        · intro h pr hpr
          rcases List.mem_cons.mp hpr with h₁ | h₂
          · subst h₁; exact hpk'
          · exact h pr h₂
        · intro h pr hpr
          exact h pr (List.mem_cons.mpr (Or.inr hpr))
      · intro v p
        rw [hgg, hfind]
        exact ih₂ v p

/-- C3 (witness): the first-match characterization applied at a
concrete one-scope store. -/
theorem get_global_first_match_witness :
    MemStore.getGlobal cexStore "app1" "k1"
      = Except.ok (JsonVal.jstr "v1", "p1") := by
  have h := get_global_first_match cexStore "app1" "k1"
  exact (h.2.2 (JsonVal.jstr "v1") "p1").mpr
    ⟨[("app1", [("k1", JsonVal.jstr "v1")])], by decide, by decide⟩

theorem hexDigit_roundtrip : ∀ n < 16, hexDigitVal (hexDigitChar n) = some n := by
  decide

theorem hexDecode_hexEncode (bs : List Nat) (h : ∀ b ∈ bs, b < 256) :
    hexDecode (hexEncode bs) = some bs := by
  induction bs with
  | nil => rfl
  | cons b t ih =>
    have hb : b < 256 := h b (List.mem_cons_self _ _)
    have ht : ∀ x ∈ t, x < 256 := fun x hx => h x (List.mem_cons.mpr (Or.inr hx))
    have h₁ : b / 16 < 16 := by omega
    have h₂ : b % 16 < 16 := Nat.mod_lt _ (by norm_num)
    have henc : hexEncode (b :: t)
        = hexDigitChar (b / 16) :: hexDigitChar (b % 16) :: hexEncode t := by
      simp [hexEncode, hexEncodeByte]
    rw [henc]
    simp only [hexDecode, hexDigit_roundtrip (b / 16) h₁,
      hexDigit_roundtrip (b % 16) h₂, ih ht]
    have hb' : b / 16 * 16 + b % 16 = b := by omega
    rw [hb']

/-- C6: vault round trip: sealing a plaintext under a 32-byte key and
opening under the same key returns the plaintext; opening under any
other 32-byte key fails with the single decryption-failed error. -/
theorem vault_roundtrip (p key nonce : List Nat)
    (hkey : key.length = 32) (hnonce : nonce.length = 12)
    (hp : ∀ b ∈ p, b < 256) (hk : ∀ b ∈ key, b < 256)
    (hn : ∀ b ∈ nonce, b < 256) :
    (∀ ct, encrypt p key nonce = Except.ok ct →
      decrypt ct key = Except.ok p) ∧
    (∀ ct key₂, key₂.length = 32 → key₂ ≠ key →
      encrypt p key nonce = Except.ok ct →
      decrypt ct key₂ = Except.error
        (Error.internal "decryption failed (wrong key or tampered data)")) := by
  have hall : ∀ b ∈ nonce ++ (p ++ key), b < 256 := by
    intro b hb
    rcases List.mem_append.mp hb with h | h
    · exact hn b h
    · rcases List.mem_append.mp h with h' | h'
      · exact hp b h'
      · exact hk b h'
  have hct : ∀ ct, encrypt p key nonce = Except.ok ct →
      ct = hexEncode (nonce ++ (p ++ key)) := by
    intro ct h
    simp [encrypt, hkey, aeadEncrypt] at h
    exact h.symm
  have hdec := hexDecode_hexEncode _ hall
  have htake : (nonce ++ (p ++ key)).take 12 = nonce := by
    rw [← hnonce]; exact List.take_left _ _
  have hdrop : (nonce ++ (p ++ key)).drop 12 = p ++ key := by
    rw [← hnonce]; exact List.drop_left _ _
  have hge : ¬ ((nonce ++ (p ++ key)).length < 12) := by
    simp [hnonce]
  have hdecrypt : ∀ key₂ : List Nat, key₂.length = 32 →
      decrypt (hexEncode (nonce ++ (p ++ key))) key₂ =
      (match aeadDecrypt key₂ nonce (p ++ key) with
       | none =>
         Except.error
           (Error.internal "decryption failed (wrong key or tampered data)")
       | some pt => Except.ok pt) := by
    intro key₂ hk₂
    simp only [decrypt, hk₂, hdec, htake, hdrop]
    simp [hge]
    intro hcontra
    exfalso
    omega
  have hlen₂ : (p ++ key).length = p.length + 32 := by simp [hkey]
  have hdk : (p ++ key).drop ((p ++ key).length - 32) = key := by
    rw [hlen₂]
    have he : p.length + 32 - 32 = p.length := by omega
    rw [he]
    exact List.drop_left _ _
  have htk : (p ++ key).take ((p ++ key).length - 32) = p := by
    rw [hlen₂]
    have he : p.length + 32 - 32 = p.length := by omega
    rw [he]
    exact List.take_left _ _
  have haead : aeadDecrypt key nonce (p ++ key) = some p := by
    simp [aeadDecrypt, hdk, htk, hlen₂]
  have haead₂ : ∀ key₂ : List Nat, key₂ ≠ key →
      aeadDecrypt key₂ nonce (p ++ key) = none := by
    intro key₂ hne
    have hdk' := hdk
    rw [List.length_append] at hdk'
    simp [aeadDecrypt, hdk', Ne.symm hne]
  constructor
  · intro ct h
    rw [hct ct h, hdecrypt key hkey, haead]
  · intro ct key₂ hk₂ hne h
    rw [hct ct h, hdecrypt key₂ hk₂, haead₂ key₂ hne]

/-- C6 (witness): the round trip theorem applied at a concrete
plaintext, key, second key and nonce. -/
theorem vault_roundtrip_witness :
    decrypt (hexEncode (nonceW ++ (pW ++ keyW))) keyW = Except.ok pW ∧
    decrypt (hexEncode (nonceW ++ (pW ++ keyW))) keyW₂ = Except.error
      (Error.internal "decryption failed (wrong key or tampered data)") := by
  have h := vault_roundtrip pW keyW nonceW (by decide) (by decide)
    (by decide) (by decide) (by decide)
  exact ⟨h.1 _ rfl, h.2 _ keyW₂ (by decide) (by decide) rfl⟩

theorem sendAttempts_le (oracle : Nat → Bool × IOOutcome) (fuel : Nat) :
    ∀ i conn, (sendAttempts oracle fuel i conn).2 ≤ i + fuel := by
  induction fuel with
  | zero => intro i conn; simp [sendAttempts]
  | succ fuel ih =>
    intro i conn
    simp only [sendAttempts]
    by_cases hcond : conn = false ∧ (oracle i).1 = false
    · rw [if_pos hcond]
      by_cases hi : i = 2
      · rw [if_pos hi]
        exact (by omega : i + 1 ≤ i + (fuel + 1))
      · rw [if_neg hi]
        have h := ih (i + 1) false
        exact le_trans h (by omega)
    · rw [if_neg hcond]
      cases hio : (oracle i).2 with
      | writeFail =>
        have h := ih (i + 1) false
        exact le_trans h (by omega)
      | readClosed =>
        have h := ih (i + 1) false
        exact le_trans h (by omega)
      | readErr =>
        have h := ih (i + 1) false
        exact le_trans h (by omega)
      | response line =>
        exact (by omega : i + 1 ≤ i + (fuel + 1))

theorem sendAttempts_response (oracle : Nat → Bool × IOOutcome)
    (fuel i : Nat) (conn : Bool) (line : List Char)
    (hc : conn = true ∨ (oracle i).1 = true)
    (hr : (oracle i).2 = IOOutcome.response line) :
    sendAttempts oracle (fuel + 1) i conn = (handleLine line, i + 1) := by
  have hcond : ¬ (conn = false ∧ (oracle i).1 = false) := by
    rcases hc with h | h <;> simp [h]
  simp [sendAttempts, hcond, hr]

/-- C7: the client retries only transport-level failures: a response
line — semantic success or semantic ERR — always ends the loop at the
attempt that read it; the loop never uses more than three attempts; and
an ERR line read on the first attempt is returned as the semantic error
carrying the reason text after "ERR " verbatim, after exactly one
attempt. -/
theorem client_retry_discipline :
    (∀ oracle conn, (sendAndReceive oracle conn).2 ≤ 3) ∧
    (∀ oracle fuel i conn line, (conn = true ∨ (oracle i).1 = true) →
      (oracle i).2 = IOOutcome.response line →
      sendAttempts oracle (fuel + 1) i conn = (handleLine line, i + 1)) ∧
    (∀ oracle conn line r, (conn = true ∨ (oracle 0).1 = true) →
      (oracle 0).2 = IOOutcome.response line →
      trimChars line = 'E' :: 'R' :: 'R' :: ' ' :: r →
      sendAndReceive oracle conn = (ClientResult.errInternal r, 1)) := by
  refine ⟨?_, sendAttempts_response, ?_⟩
  · intro oracle conn
    simpa using sendAttempts_le oracle 3 0 conn
  · intro oracle conn line r hc hr htrim
    have h₀ : sendAndReceive oracle conn = (handleLine line, 0 + 1) :=
      sendAttempts_response oracle 2 0 conn line hc hr
    rw [h₀]
    have hhl : handleLine line = ClientResult.errInternal r := by
      simp [handleLine, htrim, startsWithERR]
    rw [hhl]

/-- C7 (witness): the discipline applied at a concrete oracle that
answers ERR key not found on the first attempt. -/
theorem client_retry_discipline_witness :
    (sendAndReceive
      (fun _ => (true, IOOutcome.response
        ('E' :: 'R' :: 'R' :: ' ' :: "key not found".toList))) true).2 ≤ 3 ∧
    sendAndReceive
      (fun _ => (true, IOOutcome.response
        ('E' :: 'R' :: 'R' :: ' ' :: "key not found".toList))) true
      = (ClientResult.errInternal "key not found".toList, 1) := by
  have h := client_retry_discipline
  exact ⟨h.1 _ true, h.2.2 _ true _ "key not found".toList
    (Or.inl rfl) rfl (by decide)⟩

/-- C10: the bare line ERR panics the client: whenever the trimmed
response starts with ERR but holds fewer than four characters, the
slice at byte 4 is out of bounds (handleLine panics); send_and_receive
panics on the concrete response line ERR; and the branch cannot panic
once the trimmed response has at least four bytes — the precondition
the error branch silently assumes. -/
theorem client_err_slice_panics :
    (∀ line, startsWithERR (trimChars line) = true →
      (trimChars line).length < 4 → handleLine line = ClientResult.panicked) ∧
    sendAndReceive
      (fun _ => (true, IOOutcome.response ['E', 'R', 'R', '\n'])) true
      = (ClientResult.panicked, 1) ∧
    (∀ line, 4 ≤ (trimChars line).length →
      handleLine line ≠ ClientResult.panicked) := by
  refine ⟨?_, by decide, ?_⟩
  · intro line h₁ h₂
    simp [handleLine, h₁, h₂]
  · intro line h4
    by_cases hs : startsWithERR (trimChars line) = true
    · simp [handleLine, hs, Nat.not_lt.mpr h4]
    · simp [handleLine, hs]

/-- C10 (witness): the panic condition applied at the bare trimmed line
ERR, and the safety condition at a four-byte ERR line. -/
theorem client_err_slice_panics_witness :
    handleLine ['E', 'R', 'R'] = ClientResult.panicked ∧
    handleLine ['E', 'R', 'R', ' ', 'x'] ≠ ClientResult.panicked :=
  ⟨client_err_slice_panics.1 ['E', 'R', 'R'] (by decide) (by decide),
   client_err_slice_panics.2.2 ['E', 'R', 'R', ' ', 'x'] (by decide)⟩

theorem loadAllFrom_aget (t : List DirEntry) :
    ∀ acc s pd,
      (∀ e ∈ t, e.ext = some "json" → e.stem ≠ none) →
      (parsedStems t).Nodup →
      ∃ m, loadAllFrom acc t = Except.ok m ∧
        (aget m s = some pd ↔
          (∃ e ∈ t, isParsedJson e = true ∧ e.stem = some s ∧
            e.content = FileContent.parsed pd) ∨
          (aget acc s = some pd ∧
            ∀ e ∈ t, isParsedJson e = true → e.stem ≠ some s)) := by
  induction t with
  | nil =>
    intro acc s pd _ _
    exact ⟨acc, rfl, by simp⟩
  | cons e t ih =>
    intro acc s pd hutf hnd
    have hutf_t : ∀ e' ∈ t, e'.ext = some "json" → e'.stem ≠ none :=
      fun e' he' => hutf e' (List.mem_cons.mpr (Or.inr he'))
    by_cases hext : e.ext = some "json"
    · obtain ⟨st, hst⟩ : ∃ st, e.stem = some st := by
        cases hstem : e.stem with
        | none => exact absurd hstem (hutf e (List.mem_cons_self _ _) hext)
        | some st => exact ⟨st, rfl⟩
      cases hc : e.content with
      | unreadable =>
        have hpj : isParsedJson e = false := by simp [isParsedJson, hc]
        have hps : parsedStems (e :: t) = parsedStems t := by
          simp [parsedStems, List.filter_cons, hpj]
        rw [hps] at hnd
        have hload : loadAllFrom acc (e :: t) = loadAllFrom acc t := by
          simp [loadAllFrom, hext, hst, hc]
        obtain ⟨m, hm, hiff⟩ := ih acc s pd hutf_t hnd
        refine ⟨m, hload.trans hm, ?_⟩
        rw [hiff]
        simp [List.mem_cons, hpj]
      | malformed =>
        have hpj : isParsedJson e = false := by simp [isParsedJson, hc]
        have hps : parsedStems (e :: t) = parsedStems t := by
          simp [parsedStems, List.filter_cons, hpj]
        rw [hps] at hnd
        have hload : loadAllFrom acc (e :: t) = loadAllFrom acc t := by
          simp [loadAllFrom, hext, hst, hc]
        obtain ⟨m, hm, hiff⟩ := ih acc s pd hutf_t hnd
        refine ⟨m, hload.trans hm, ?_⟩
        rw [hiff]
        simp [List.mem_cons, hpj]
      | parsed d =>
        have hpj : isParsedJson e = true := by simp [isParsedJson, hext, hc]
        have hps : parsedStems (e :: t) = e.stem :: parsedStems t := by
          simp [parsedStems, List.filter_cons, hpj]
        rw [hps, hst] at hnd
        have hnotin : some st ∉ parsedStems t := (List.nodup_cons.mp hnd).1
        have hnd' : (parsedStems t).Nodup := (List.nodup_cons.mp hnd).2
        have hmem_stems : ∀ e' ∈ t, isParsedJson e' = true →
            e'.stem ∈ parsedStems t := by
          intro e' he' hpj'
          exact List.mem_map.mpr ⟨e', List.mem_filter.mpr ⟨he', hpj'⟩, rfl⟩
        have hload : loadAllFrom acc (e :: t)
            = loadAllFrom (aset acc st d) t := by
          simp [loadAllFrom, hext, hst, hc]
        obtain ⟨m, hm, hiff⟩ := ih (aset acc st d) s pd hutf_t hnd'
        refine ⟨m, hload.trans hm, ?_⟩
        rw [hiff]
        by_cases hs : st = s
        · subst hs
          constructor
          · rintro (⟨e', he', hpj', hstem', hcont'⟩ | ⟨h₁, h₂⟩)
            · exact absurd (hstem' ▸ hmem_stems e' he' hpj') hnotin
            · rw [aget_aset_self] at h₁
              have hpd : d = pd := by injection h₁
              subst hpd
              exact Or.inl ⟨e, List.mem_cons_self _ _, hpj, hst, hc⟩
          · rintro (⟨e', he', hpj', hstem', hcont'⟩ | ⟨h₁, h₂⟩)
            · rcases List.mem_cons.mp he' with hh | hh
              · subst hh
                rw [hc] at hcont'
                have hpd : d = pd := by injection hcont'
                subst hpd
                refine Or.inr ⟨by rw [aget_aset_self], ?_⟩
                intro e'' he'' hpj'' heq
                exact absurd (heq ▸ hmem_stems e'' he'' hpj'') hnotin
              · exact absurd (hstem' ▸ hmem_stems e' hh hpj') hnotin
            · exact absurd hst (h₂ e (List.mem_cons_self _ _) hpj)
        · have hagne : aget (aset acc st d) s = aget acc s :=
            aget_aset_ne acc st s d (Ne.symm hs)
          rw [hagne]
          constructor
          · rintro (⟨e', he', hx⟩ | ⟨h₁, h₂⟩)
            · exact Or.inl ⟨e', List.mem_cons.mpr (Or.inr he'), hx⟩
            · refine Or.inr ⟨h₁, ?_⟩
              intro e'' he'' hpj''
              rcases List.mem_cons.mp he'' with hh | hh
              · subst hh
                rw [hst]
                intro hcon
                exact hs (by injection hcon)
              · exact h₂ e'' hh hpj''
          · rintro (⟨e', he', hx⟩ | ⟨h₁, h₂⟩)
            · rcases List.mem_cons.mp he' with hh | hh
              · subst hh
                have hcon := hst.symm.trans hx.2.1
                exact absurd (by injection hcon) hs
              · exact Or.inl ⟨e', hh, hx⟩
            · exact Or.inr ⟨h₁, fun e'' he'' hpj'' =>
                h₂ e'' (List.mem_cons.mpr (Or.inr he'')) hpj''⟩
    · have hpj : isParsedJson e = false := by simp [isParsedJson, hext]
      have hps : parsedStems (e :: t) = parsedStems t := by
        simp [parsedStems, List.filter_cons, hpj]
      rw [hps] at hnd
      have hload : loadAllFrom acc (e :: t) = loadAllFrom acc t := by
        simp [loadAllFrom, hext]
      obtain ⟨m, hm, hiff⟩ := ih acc s pd hutf_t hnd
      refine ⟨m, hload.trans hm, ?_⟩
      rw [hiff]
      simp [List.mem_cons, hpj]

/-- C8 (counterexample): a directory holding one valid scope file next
to one .json entry whose file stem does not decode to UTF-8: the
ok_or(Internal("Invalid filename")) plus ? at persistence.rs lines
62-65 aborts the whole load, so load_all does not return Ok and the
valid scope is not loaded — refuting that a bad file never causes
load_all as a whole to fail. -/
theorem load_all_invalid_filename_counterexample :
    (∃ e ∈ dirBad, e.ext = some "json" ∧
      e.content
        = FileContent.parsed [("app1", [("k1", JsonVal.jstr "v1")])]) ∧
    loadAll dirBad = Except.error (Error.internal "Invalid filename") :=
  ⟨by decide, rfl⟩

/-- C8 (amended): for a directory whose .json entries all carry UTF-8
decodable file stems (and distinct stems, as distinct file names
guarantee), load_all returns Ok with exactly the scopes whose files
are readable and parse into the Namespace -> Key -> Value shape;
unreadable and malformed files are skipped without affecting the rest.
A .json entry whose stem does not decode to UTF-8 instead aborts the
whole load. -/
theorem load_all_skips_corrupt (entries : List DirEntry)
    (hutf : ∀ e ∈ entries, e.ext = some "json" → e.stem ≠ none)
    (hnd : (parsedStems entries).Nodup) (s : String) (pd : PersonaData) :
    ∃ m, loadAll entries = Except.ok m ∧
      (aget m s = some pd ↔
        ∃ e ∈ entries, e.ext = some "json" ∧ e.stem = some s ∧
          e.content = FileContent.parsed pd) := by
  obtain ⟨m, hm, hiff⟩ := loadAllFrom_aget entries [] s pd hutf hnd
  refine ⟨m, hm, ?_⟩
  rw [hiff]
  constructor
  · rintro (⟨e, he, hpj, hstem, hcont⟩ | ⟨h₁, h₂⟩)
    · have hext : e.ext = some "json" := by
        simp [isParsedJson] at hpj
        exact hpj.1
      exact ⟨e, he, hext, hstem, hcont⟩
    · simp [aget] at h₁
  · rintro ⟨e, he, hext, hstem, hcont⟩
    exact Or.inl ⟨e, he, by simp [isParsedJson, hext, hcont], hstem, hcont⟩

/-- C8 (witness): the characterization applied at a concrete directory
holding one valid scope file, a malformed one, an unreadable one and a
non-json entry — the load succeeds and the valid scope is exactly what
loads. -/
theorem load_all_skips_corrupt_witness :
    ∃ m, loadAll dirW = Except.ok m ∧
      aget m "p1" = some [("app1", [("k1", JsonVal.jstr "v1")])] := by
  obtain ⟨m, hm, hiff⟩ := load_all_skips_corrupt dirW (by decide) (by decide)
    "p1" [("app1", [("k1", JsonVal.jstr "v1")])]
  exact ⟨m, hm, hiff.mpr (by decide)⟩

theorem canonical_ne_temp (dir personaId : String) :
    canonicalPath dir personaId ≠ tempPath dir personaId := by
  intro h
  have hlen := congrArg String.length h
  rw [tempPath] at hlen
  simp [String.length_append] at hlen
  exact absurd hlen (by decide)

/-- C9: save_persona stages through the .json.tmp path: over every
proper prefix of its operation sequence the canonical path still shows
its initial content — the single write targets the staging path, which
is never the canonical path — and after the final rename, the only
transition visible at the canonical path, it holds exactly the
serialized bytes. -/
theorem save_persona_atomic (dir personaId : String) (bytes : List Nat)
    (s₀ : FsState) :
    (∀ n, n < (savePersonaOps dir personaId bytes).length →
      runOps s₀ ((savePersonaOps dir personaId bytes).take n)
        (canonicalPath dir personaId) = s₀ (canonicalPath dir personaId)) ∧
    runOps s₀ (savePersonaOps dir personaId bytes)
      (canonicalPath dir personaId) = some bytes ∧
    (∀ p c, FsOp.write p c ∈ savePersonaOps dir personaId bytes →
      p ≠ canonicalPath dir personaId) := by
  have hne : canonicalPath dir personaId ≠ tempPath dir personaId :=
    canonical_ne_temp dir personaId
  refine ⟨?_, ?_, ?_⟩
  · intro n hn
    have hn₂ : n < 2 := by simpa [savePersonaOps] using hn
    interval_cases n
    · rfl
    · simp [savePersonaOps, runOps, applyOp, hne]
  · simp [savePersonaOps, runOps, applyOp, hne]
  · intro p c hmem
    simp [savePersonaOps] at hmem
    obtain ⟨hp, _⟩ := hmem
    subst hp
    exact Ne.symm hne

/-- C9 (witness): the staging theorem applied at a concrete directory,
scope id, byte string and an empty initial file system. -/
theorem save_persona_atomic_witness :
    runOps (fun _ => none) ((savePersonaOps "data" "p1" [7, 8]).take 1)
      (canonicalPath "data" "p1") = none ∧
    runOps (fun _ => none) (savePersonaOps "data" "p1" [7, 8])
      (canonicalPath "data" "p1") = some [7, 8] := by
  have h := save_persona_atomic "data" "p1" [7, 8] (fun _ => none)
  exact ⟨h.1 1 (by decide), h.2.1⟩

end Celerix
